import Mathlib

/-!
Verification of the numerical routines of the repository (an HTML/JS essay
with canvas figures).  The JavaScript numerics are shallowly embedded:
floating-point arithmetic is modelled over the real numbers, 32-bit machine
integers over Int and Nat with explicit reduction modulo 2^32, JS arrays over
Lean lists.  Each figure script shares a seeded linear congruential PRNG
(src/utils.js), a KMR birth-death chain (bundle.js, Figure 1), a bisection
separatrix solver (sim2-basin.js), replicator Euler updates (bundle.js,
Figure 6) and two entropy estimators (bundle.js, Figure 7).
-/

open Classical

/- ===================== Shared PRNG (src/utils.js 5-10) =====================
   let _seed = 98765;
   function rand() \x7b
       _seed = (Math.imul(_seed, 1664525) + 1013904223) | 0;
       return (_seed >>> 0) / 4294967296;
   \x7d
   function resetSeed() \x7b _seed = 98765; \x7d
   The stored seed is a signed 32-bit integer (the `| 0` coercion); `>>> 0`
   reinterprets it as unsigned before the division. -/

/-- Signed 32-bit wraparound: the result of coercing an integer to the range
[-2^31, 2^31), as JS `| 0` and `Math.imul` do. -/
def wrap32 (x : ℤ) : ℤ := (x + 2 ^ 31) % 2 ^ 32 - 2 ^ 31

/-- JS Math.imul: 32-bit signed multiplication. -/
def imul (a b : ℤ) : ℤ := wrap32 (a * b)

/-- The seed update of rand(): `_seed = (Math.imul(_seed, 1664525) + 1013904223) | 0`. -/
def jsNextSeed (s : ℤ) : ℤ := wrap32 (imul s 1664525 + 1013904223)

/-- JS `>>> 0`: reinterpret a signed 32-bit value as unsigned. -/
def toUint32 (x : ℤ) : ℤ := x % 2 ^ 32

/-- One call of rand(): the updated internal seed, and the returned value
`(_seed >>> 0) / 4294967296`. -/
noncomputable def jsRand (s : ℤ) : ℤ × ℝ :=
  (jsNextSeed s, ((toUint32 (jsNextSeed s) : ℤ) : ℝ) / 4294967296)

/-- resetSeed(): the global seed becomes 98765 no matter what it was. -/
def resetSeed (_s : ℤ) : ℤ := 98765

/- The unsigned view of the same LCG, used to thread the PRNG state through
the KMR simulation below (seeds live in 0..2^32-1 there). -/

/-- The seed update seen through the unsigned reinterpretation. -/
def nextSeed (s : ℕ) : ℕ := (1664525 * s + 1013904223) % 2 ^ 32

/-- The value rand() returns when the unsigned updated seed is s. -/
noncomputable def randVal (s : ℕ) : ℝ := (s : ℝ) / 4294967296

lemma wrap32_emod (x : ℤ) : wrap32 x % 2 ^ 32 = x % 2 ^ 32 := by
  unfold wrap32
  omega

lemma toUint32_wrap32 (x : ℤ) : toUint32 (wrap32 x) = toUint32 x := by
  unfold toUint32
  exact wrap32_emod x

lemma toUint32_nonneg (x : ℤ) : 0 ≤ toUint32 x :=
  Int.emod_nonneg x (by norm_num)

lemma toUint32_lt (x : ℤ) : toUint32 x < 2 ^ 32 :=
  Int.emod_lt_of_pos x (by norm_num)

/-- Claim C10: the shared PRNG is a total function into the unit interval.
For every internal seed state s, the updated seed of rand(), reinterpreted as
an unsigned 32-bit integer, equals (1664525 * u + 1013904223) mod 2^32 where
u is the unsigned view of s, and the returned value r = u2 / 2^32 satisfies
0 ≤ r < 1. -/
theorem jsRand_unit_interval (s : ℤ) :
    toUint32 (jsNextSeed s) = (1664525 * toUint32 s + 1013904223) % 2 ^ 32 ∧
    0 ≤ (jsRand s).2 ∧ (jsRand s).2 < 1 := by
  refine ⟨?_, ?_, ?_⟩
  · unfold jsNextSeed imul toUint32 wrap32
    omega
  · unfold jsRand
    have h := toUint32_nonneg (jsNextSeed s)
    positivity
  · unfold jsRand
    have h := toUint32_lt (jsNextSeed s)
    rw [div_lt_one (by norm_num)]
    calc ((toUint32 (jsNextSeed s) : ℤ) : ℝ) < ((2 ^ 32 : ℤ) : ℝ) := by
          exact_mod_cast h
      _ = 4294967296 := by norm_num

/- ===================== Lazy canvas rendering (src/utils.js 69-79) ==========
   function lazyDraw(canvasId, drawFn) \x7b
       const cv = document.getElementById(canvasId);
       if (!cv) return;
       if (!("IntersectionObserver" in window)) \x7b drawFn(cv); return; \x7d
       new IntersectionObserver(...).observe(cv);
   \x7d
   The DOM is modelled as a lookup from element ids to optional elements; the
   effects the call performs are returned as an explicit list. -/

/-- Effect performed by a lazyDraw call: either drawFn ran immediately on the
canvas (no IntersectionObserver available), or an observer was registered that
will run drawFn on the canvas when it intersects the viewport. -/
inductive LazyEffect (C A : Type) where
  | drawnNow : C → A → LazyEffect C A
  | observerRegistered : C → A → LazyEffect C A
deriving DecidableEq

/-- lazyDraw from src/utils.js: look the canvas up in the document; if absent,
return with no effect; otherwise draw immediately or defer to an observer. -/
def lazyDraw {C A : Type} (doc : String → Option C) (canvasId : String)
    (drawFn : C → A) (hasObserver : Bool) : List (LazyEffect C A) :=
  match doc canvasId with
  | none => []
  | some cv =>
      if hasObserver then [LazyEffect.observerRegistered cv (drawFn cv)]
      else [LazyEffect.drawnNow cv (drawFn cv)]

/-- Claim C7: lazyDraw guards against a missing canvas.  When the document
lookup yields no element, the call performs no effect at all: drawFn is not
invoked, no observer is registered, no error is raised (the function is total)
and the effect list is empty, whether or not IntersectionObserver exists. -/
theorem lazyDraw_missing_canvas {C A : Type} (doc : String → Option C)
    (canvasId : String) (drawFn : C → A) (hasObserver : Bool)
    (h : doc canvasId = none) :
    lazyDraw doc canvasId drawFn hasObserver = [] := by
  unfold lazyDraw
  rw [h]

/-- Witness for C7 at a concrete document with no elements and the canvas id
of Figure 2. -/
theorem lazyDraw_missing_canvas_witness :
    (fun _ : String => (none : Option Unit)) "basinChart" = none ∧
    lazyDraw (fun _ : String => (none : Option Unit)) "basinChart"
      (fun _ => (0 : ℕ)) true = [] :=
  ⟨rfl, lazyDraw_missing_canvas (fun _ => none) "basinChart" (fun _ => 0) true rfl⟩

/- ===================== KMR chain (src/bundle.js 83-131, Figure 1) ==========
   N = 50, H1 = 2.0, H2 = 1.2, nu = 1.0, gamma = 1.5.
   function uVal(k, isP1) \x7b xi = k/N; isP1 ? H1 + nu*xi^gamma
                                            : H2 + nu*(1-xi)^gamma \x7d
   runKMR(eps, T): resetSeed(); k = floor(N/2); hist = zeros(N+1);
   burnin = floor(T*0.25); T steps of mutation / best-response on one agent;
   hist[k]++ for t >= burnin; return hist.
   The global seed is threaded explicitly in its unsigned view; floor(T*0.25)
   on a natural T is natural division by 4. -/

/-- Increment slot k of a histogram, as hist[k]++ does (out-of-range k leaves
the list unchanged; the invariant k ≤ 50 keeps every increment in range). -/
def bump : List ℕ → ℕ → List ℕ
  | [], _ => []
  | h :: t, 0 => (h + 1) :: t
  | h :: t, k + 1 => h :: bump t k

lemma bump_length : ∀ (l : List ℕ) (k : ℕ), (bump l k).length = l.length := by
  intro l
  induction l with
  | nil => intro k; rfl
  | cons h t ih =>
      intro k
      cases k with
      | zero => rfl
      | succ k => simp [bump, ih k]

lemma bump_sum : ∀ (l : List ℕ) (k : ℕ), k < l.length →
    (bump l k).sum = l.sum + 1 := by
  intro l
  induction l with
  | nil => intro k hk; simp at hk
  | cons h t ih =>
      intro k hk
      cases k with
      | zero => simp [bump]; ring
      | succ k =>
          simp only [bump, List.sum_cons]
          rw [ih k (by simpa using hk)]
          ring

/-- uVal from Figure 1: fitness of platform 1 (resp. 2) when k of the N = 50
agents are on platform 1. -/
noncomputable def uVal (k : ℕ) (isP1 : Bool) : ℝ :=
  if isP1 then 2.0 + 1.0 * ((k : ℝ) / 50) ^ (1.5 : ℝ)
  else 1.2 + 1.0 * (1 - (k : ℝ) / 50) ^ (1.5 : ℝ)

/-- One step of the KMR loop body on (unsigned seed, count k): with
probability eps a mutation (one random agent picks a random platform),
otherwise a best response (one random agent switches if beneficial).  Each
rand() call advances the seed; the comparisons mirror src/bundle.js 110-127. -/
noncomputable def kmrStep (eps : ℝ) (s k : ℕ) : ℕ × ℕ :=
  let u1 := uVal k true
  let u2 := uVal k false
  let s1 := nextSeed s
  if randVal s1 < eps then
    let s2 := nextSeed s1
    let s3 := nextSeed s2
    let coinP1 := randVal s2 < 0.5
    let agentOnP1 := randVal s3 < (k : ℝ) / 50
    if agentOnP1 ∧ ¬coinP1 ∧ 0 < k then (s3, k - 1)
    else if ¬agentOnP1 ∧ coinP1 ∧ k < 50 then (s3, k + 1)
    else (s3, k)
  else
    let s2 := nextSeed s1
    let agentOnP1 := randVal s2 < (k : ℝ) / 50
    if agentOnP1 then (if u1 < u2 ∧ 0 < k then (s2, k - 1) else (s2, k))
    else (if u2 < u1 ∧ k < 50 then (s2, k + 1) else (s2, k))

/-- State of runKMR after t iterations of its loop, starting from unsigned
seed s0: ((seed, k), hist).  k starts at floor(N/2) = 25, hist at N+1 = 51
zeros; after the step of index t, hist[k]++ happens when t ≥ burnin. -/
noncomputable def kmrIter (eps : ℝ) (burnin s0 : ℕ) : ℕ → (ℕ × ℕ) × List ℕ
  | 0 => ((s0, 25), List.replicate 51 0)
  | t + 1 =>
      let st := kmrIter eps burnin s0 t
      let sk := kmrStep eps st.1.1 st.1.2
      (sk, if burnin ≤ t then bump st.2 sk.2 else st.2)

/-- runKMR(eps, T) from src/bundle.js: resetSeed(), then T loop iterations
with burnin = floor(T * 0.25) = T / 4; returns the histogram.  The incoming
global seed state sIn is an explicit argument. -/
noncomputable def runKMR (sIn : ℤ) (eps : ℝ) (T : ℕ) : List ℕ :=
  (kmrIter eps (T / 4) (resetSeed sIn).toNat T).2

lemma kmrStep_k_cases (eps : ℝ) (s k : ℕ) :
    (kmrStep eps s k).2 = k ∨
    ((kmrStep eps s k).2 = k + 1 ∧ k < 50) ∨
    ((kmrStep eps s k).2 = k - 1 ∧ 0 < k) := by
  unfold kmrStep
  dsimp only
  split_ifs <;> simp_all

lemma kmrStep_k_le (eps : ℝ) (s k : ℕ) (hk : k ≤ 50) :
    (kmrStep eps s k).2 ≤ 50 := by
  rcases kmrStep_k_cases eps s k with h | ⟨h, hlt⟩ | ⟨h, _⟩ <;> omega

lemma kmrIter_k_le (eps : ℝ) (burnin s0 : ℕ) :
    ∀ t, (kmrIter eps burnin s0 t).1.2 ≤ 50 := by
  intro t
  induction t with
  | zero => simp [kmrIter]
  | succ t ih => exact kmrStep_k_le eps _ _ ih

lemma kmrIter_hist_length (eps : ℝ) (burnin s0 : ℕ) :
    ∀ t, (kmrIter eps burnin s0 t).2.length = 51 := by
  intro t
  induction t with
  | zero => simp [kmrIter]
  | succ t ih =>
      show (if burnin ≤ t then _ else _ : List ℕ).length = 51
      split_ifs with h
      · rw [bump_length]; exact ih
      · exact ih

lemma kmrIter_hist_sum (eps : ℝ) (burnin s0 : ℕ) :
    ∀ t, (kmrIter eps burnin s0 t).2.sum = t - burnin := by
  intro t
  induction t with
  | zero => simp [kmrIter]
  | succ t ih =>
      show (if burnin ≤ t then _ else _ : List ℕ).sum = t + 1 - burnin
      split_ifs with h
      · rw [bump_sum]
        · omega
        · rw [kmrIter_hist_length]
          have := kmrIter_k_le eps burnin s0 t
          have := kmrStep_k_le eps (kmrIter eps burnin s0 t).1.1
            (kmrIter eps burnin s0 t).1.2 this
          omega
      · omega

/-- Claim C3: the KMR simulation is a birth-death chain on 0..N, N = 50.
Along the iteration underlying runKMR (any incoming seed, any burnin = T/4),
for every eps in [0,1]: k starts at floor(N/2) = 25, stays in 0..50 after
every step, and each step moves k by at most one. -/
theorem kmr_birth_death (eps : ℝ) (heps0 : 0 ≤ eps) (heps1 : eps ≤ 1)
    (sIn : ℤ) (T : ℕ) :
    (kmrIter eps (T / 4) (resetSeed sIn).toNat 0).1.2 = 25 ∧
    (∀ t, (kmrIter eps (T / 4) (resetSeed sIn).toNat t).1.2 ≤ 50) ∧
    (∀ t, |((kmrIter eps (T / 4) (resetSeed sIn).toNat (t + 1)).1.2 : ℤ) -
           ((kmrIter eps (T / 4) (resetSeed sIn).toNat t).1.2 : ℤ)| ≤ 1) := by
  refine ⟨rfl, kmrIter_k_le eps _ _, ?_⟩
  intro t
  have h := kmrStep_k_cases eps (kmrIter eps (T / 4) (resetSeed sIn).toNat t).1.1
    (kmrIter eps (T / 4) (resetSeed sIn).toNat t).1.2
  have hstep : (kmrIter eps (T / 4) (resetSeed sIn).toNat (t + 1)).1.2 =
      (kmrStep eps (kmrIter eps (T / 4) (resetSeed sIn).toNat t).1.1
        (kmrIter eps (T / 4) (resetSeed sIn).toNat t).1.2).2 := rfl
  rw [hstep]
  rcases h with h | ⟨h, _⟩ | ⟨h, _⟩ <;> rw [h, abs_le] <;> constructor <;> omega

/-- Witness for C3 at eps = 1/2, seed state 0, T = 8. -/
theorem kmr_birth_death_witness :
    (0 : ℝ) ≤ 1 / 2 ∧ (1 / 2 : ℝ) ≤ 1 ∧
    ((kmrIter (1 / 2) (8 / 4) (resetSeed 0).toNat 0).1.2 = 25 ∧
     (∀ t, (kmrIter (1 / 2) (8 / 4) (resetSeed 0).toNat t).1.2 ≤ 50) ∧
     (∀ t, |((kmrIter (1 / 2) (8 / 4) (resetSeed 0).toNat (t + 1)).1.2 : ℤ) -
            ((kmrIter (1 / 2) (8 / 4) (resetSeed 0).toNat t).1.2 : ℤ)| ≤ 1)) :=
  ⟨by norm_num, by norm_num, kmr_birth_death (1 / 2) (by norm_num) (by norm_num) 0 8⟩

/-- Claim C6: runKMR returns an empirical histogram over the full state
space.  For every incoming seed state, eps and positive T, the histogram has
exactly N + 1 = 51 entries, every entry is a nonnegative integer, and the
entries sum to T - floor(0.25 * T), the number of post-burn-in steps. -/
theorem runKMR_histogram (sIn : ℤ) (eps : ℝ) (T : ℕ) (hT : 0 < T) :
    (runKMR sIn eps T).length = 51 ∧
    (∀ x ∈ runKMR sIn eps T, 0 ≤ x) ∧
    (runKMR sIn eps T).sum = T - T / 4 := by
  refine ⟨kmrIter_hist_length eps (T / 4) (resetSeed sIn).toNat T,
    fun x _ => Nat.zero_le x,
    kmrIter_hist_sum eps (T / 4) (resetSeed sIn).toNat T⟩

/-- Witness for C6 at seed state 0, eps = 1/2, T = 8. -/
theorem runKMR_histogram_witness :
    0 < 8 ∧
    ((runKMR 0 (1 / 2) 8).length = 51 ∧
     (∀ x ∈ runKMR 0 (1 / 2) 8, 0 ≤ x) ∧
     (runKMR 0 (1 / 2) 8).sum = 8 - 8 / 4) :=
  ⟨by norm_num, runKMR_histogram 0 (1 / 2) 8 (by norm_num)⟩

/-- Claim C5: runKMR is seeded and hence reproducible.  Because the loop
begins with resetSeed(), the returned histogram does not depend on the
incoming global PRNG state: any two invocations with the same eps and T
return element-wise identical histograms. -/
theorem runKMR_reproducible (sIn sIn' : ℤ) (eps : ℝ) (T : ℕ) :
    runKMR sIn eps T = runKMR sIn' eps T ∧
    ∀ i : ℕ, (runKMR sIn eps T).getD i 0 = (runKMR sIn' eps T).getD i 0 := by
  have h : runKMR sIn eps T = runKMR sIn' eps T := rfl
  exact ⟨h, fun i => by rw [h]⟩

/- ================ Entropy estimators (src/bundle.js 738-758, Figure 7) =====
   function pluginH(counts, n): H -= p * log p over nonzero counts, p = c/n.
   function chaoShenH(counts, n): H -= p * log p / denom over nonzero counts,
   p = c/n, denom = 1 - (1-p)^n, terms with denom < 1e-12 skipped.
   Math.pow(1 - p, n) with the integer sample size n is an integer power. -/

/-- Contribution of one count to pluginH: 0 for a zero count (the continue),
otherwise -(p * log p) with p = c / n. -/
noncomputable def piTerm (n c : ℕ) : ℝ :=
  if c = 0 then 0 else -((c : ℝ) / n * Real.log ((c : ℝ) / n))

/-- Contribution of one count to chaoShenH: 0 for a zero count or when the
denominator 1 - (1-p)^n falls below 1e-12 (both continue), otherwise
-(p * log p / (1 - (1-p)^n)). -/
noncomputable def csTerm (n c : ℕ) : ℝ :=
  if c = 0 then 0
  else if 1 - (1 - (c : ℝ) / n) ^ n < 1e-12 then 0
  else -((c : ℝ) / n * Real.log ((c : ℝ) / n) / (1 - (1 - (c : ℝ) / n) ^ n))

/-- The accumulator loop of pluginH. -/
noncomputable def pluginHAux (n : ℕ) : ℝ → List ℕ → ℝ
  | acc, [] => acc
  | acc, c :: rest =>
      pluginHAux n
        (if c = 0 then acc else acc - (c : ℝ) / n * Real.log ((c : ℝ) / n)) rest

/-- pluginH(counts, n) from src/bundle.js 738-746: the naive plug-in Shannon
entropy estimate of a frequency count vector. -/
noncomputable def pluginH (counts : List ℕ) (n : ℕ) : ℝ := pluginHAux n 0 counts

/-- The accumulator loop of chaoShenH. -/
noncomputable def chaoShenHAux (n : ℕ) : ℝ → List ℕ → ℝ
  | acc, [] => acc
  | acc, c :: rest =>
      chaoShenHAux n
        (if c = 0 then acc
         else if 1 - (1 - (c : ℝ) / n) ^ n < 1e-12 then acc
         else acc - (c : ℝ) / n * Real.log ((c : ℝ) / n) /
           (1 - (1 - (c : ℝ) / n) ^ n)) rest

/-- chaoShenH(counts, n) from src/bundle.js 748-758: the bias-corrected
entropy estimate the code actually computes (Horvitz-Thompson denominator
with the raw p = c / n; no coverage adjustment appears in the source). -/
noncomputable def chaoShenH (counts : List ℕ) (n : ℕ) : ℝ := chaoShenHAux n 0 counts

/-- The estimator claim C2 describes, written from the words of the spec:
with f1 the number of singleton counts (counts equal to 1), coverage
cov = 1 - f1 / n and adjusted probabilities cov * c / n, the sum over nonzero
counts of -(q * log q / (1 - (1-q)^n)) with q the adjusted probability. -/
noncomputable def chaoShenSpecH (counts : List ℕ) (n : ℕ) : ℝ :=
  let f1 := (counts.filter (fun c => c = 1)).length
  let cov : ℝ := 1 - (f1 : ℝ) / n
  (counts.map (fun c =>
    if c = 0 then 0
    else -(cov * (c : ℝ) / n * Real.log (cov * (c : ℝ) / n) /
      (1 - (1 - cov * (c : ℝ) / n) ^ n)))).sum

lemma pluginHAux_eq (n : ℕ) :
    ∀ (l : List ℕ) (acc : ℝ), pluginHAux n acc l = acc + (l.map (piTerm n)).sum := by
  intro l
  induction l with
  | nil => intro acc; simp [pluginHAux]
  | cons c rest ih =>
      intro acc
      show pluginHAux n _ rest = _
      rw [ih]
      simp only [List.map_cons, List.sum_cons, piTerm]
      split_ifs <;> ring

lemma chaoShenHAux_eq (n : ℕ) :
    ∀ (l : List ℕ) (acc : ℝ), chaoShenHAux n acc l = acc + (l.map (csTerm n)).sum := by
  intro l
  induction l with
  | nil => intro acc; simp [chaoShenHAux]
  | cons c rest ih =>
      intro acc
      show chaoShenHAux n _ rest = _
      rw [ih]
      simp only [List.map_cons, List.sum_cons, csTerm]
      split_ifs <;> ring

lemma pluginH_eq_sum (counts : List ℕ) (n : ℕ) :
    pluginH counts n = (counts.map (piTerm n)).sum := by
  rw [pluginH, pluginHAux_eq]
  ring

lemma chaoShenH_eq_sum (counts : List ℕ) (n : ℕ) :
    chaoShenH counts n = (counts.map (csTerm n)).sum := by
  rw [chaoShenH, chaoShenHAux_eq]
  ring

lemma map_sum_eq_range_sum (f : ℕ → ℝ) :
    ∀ l : List ℕ, (l.map f).sum = ∑ i in Finset.range l.length, f (l.getD i 0) := by
  intro l
  induction l with
  | nil => simp
  | cons c rest ih =>
      simp only [List.map_cons, List.sum_cons, List.length_cons]
      rw [Finset.sum_range_succ']
      simp only [List.getD_cons_succ, List.getD_cons_zero]
      rw [ih]
      ring

lemma chaoShenH_concrete : chaoShenH [2, 1, 1] 4 = (1048 / 525) * Real.log 2 := by
  have h1 : Real.log ((1:ℝ)/2) = -Real.log 2 := by
    rw [show ((1:ℝ)/2) = 2⁻¹ by norm_num, Real.log_inv]
  have h4 : Real.log ((1:ℝ)/4) = -(2 * Real.log 2) := by
    rw [show ((1:ℝ)/4) = (2^2:ℝ)⁻¹ by norm_num, Real.log_inv, Real.log_pow]
    push_cast
    ring
  norm_num [chaoShenH, chaoShenHAux]
  rw [h1, h4]
  ring

lemma chaoShenSpecH_concrete :
    chaoShenSpecH [2, 1, 1] 4 = (128 / 175 + 1024 / 565) * Real.log 2 := by
  have h4 : Real.log ((1:ℝ)/4) = -(2 * Real.log 2) := by
    rw [show ((1:ℝ)/4) = (2^2:ℝ)⁻¹ by norm_num, Real.log_inv, Real.log_pow]
    push_cast
    ring
  have h8 : Real.log ((1:ℝ)/8) = -(3 * Real.log 2) := by
    rw [show ((1:ℝ)/8) = (2^3:ℝ)⁻¹ by norm_num, Real.log_inv, Real.log_pow]
    push_cast
    ring
  norm_num [chaoShenSpecH, List.filter]
  rw [h4, h8]
  ring

/-- Counterexample to claim C2 as stated: on the count vector [2, 1, 1] with
n = 4, the code's chaoShenH (which uses the raw probabilities c / n) does not
equal the coverage-adjusted formula the claim describes (f1 = 2 singletons,
coverage 1 - 2/4 = 1/2, adjusted probabilities 1/4, 1/8, 1/8).  The code
yields (1048/525) log 2, the claimed formula (128/175 + 1024/565) log 2. -/
theorem chaoShenH_ne_coverage_adjusted :
    chaoShenH [2, 1, 1] 4 ≠ chaoShenSpecH [2, 1, 1] 4 := by
  rw [chaoShenH_concrete, chaoShenSpecH_concrete]
  have hlog : 0 < Real.log 2 := Real.log_pos (by norm_num)
  intro h
  nlinarith [h, hlog]

/-- Claim C2, amended to the formula the source implements: chaoShenH
computes the Horvitz-Thompson bias-corrected entropy estimate with the
unadjusted probabilities p_i = counts[i] / n (the source applies no coverage
adjustment; there is no f1 in it): it returns the sum over nonzero counts of
-(p_i log p_i) / (1 - (1 - p_i)^n), terms whose denominator is below 1e-12
being skipped. -/
theorem chaoShenH_eq_ht_estimator (counts : List ℕ) (n : ℕ) :
    chaoShenH counts n =
      ∑ i in Finset.range counts.length,
        (if counts.getD i 0 = 0 then 0
         else if 1 - (1 - (counts.getD i 0 : ℝ) / n) ^ n < 1e-12 then 0
         else -((counts.getD i 0 : ℝ) / n * Real.log ((counts.getD i 0 : ℝ) / n) /
           (1 - (1 - (counts.getD i 0 : ℝ) / n) ^ n))) := by
  rw [chaoShenH_eq_sum, map_sum_eq_range_sum (csTerm n)]
  rfl

lemma prob_denom_bounds (n c : ℕ) (hn : 1 ≤ n) (hc0 : c ≠ 0) (hcn : c ≤ n) :
    0 < (c : ℝ) / n ∧ (c : ℝ) / n ≤ 1 ∧
    (1 - (c : ℝ) / n) ^ n ≤ Real.exp (-1) := by
  have hnpos : (0 : ℝ) < n := by exact_mod_cast hn
  have hc1 : (1 : ℝ) ≤ c := by exact_mod_cast Nat.one_le_iff_ne_zero.mpr hc0
  have hcnR : (c : ℝ) ≤ n := by exact_mod_cast hcn
  have hp0 : 0 < (c : ℝ) / n := div_pos (by linarith) hnpos
  have hp1 : (c : ℝ) / n ≤ 1 := (div_le_one hnpos).mpr hcnR
  refine ⟨hp0, hp1, ?_⟩
  have hbase : 1 - (c : ℝ) / n ≤ Real.exp (-((c : ℝ) / n)) := by
    have := Real.add_one_le_exp (-((c : ℝ) / n))
    linarith
  have hbase0 : 0 ≤ 1 - (c : ℝ) / n := by linarith
  calc (1 - (c : ℝ) / n) ^ n ≤ Real.exp (-((c : ℝ) / n)) ^ n :=
        pow_le_pow_left hbase0 hbase n
    _ = Real.exp ((n : ℝ) * -((c : ℝ) / n)) := (Real.exp_nat_mul _ n).symm
    _ = Real.exp (-(c : ℝ)) := by
        congr 1
        field_simp
        ring
    _ ≤ Real.exp (-1) := Real.exp_le_exp.mpr (by linarith)

lemma exp_neg_one_lt_half : Real.exp (-1) < 1 / 2 := by
  have h := Real.exp_one_gt_d9
  have hpos := Real.exp_pos 1
  rw [Real.exp_neg]
  have hinv := mul_inv_cancel₀ (ne_of_gt hpos)
  nlinarith

lemma piTerm_nonneg (n c : ℕ) (hn : 1 ≤ n) (hcn : c ≤ n) : 0 ≤ piTerm n c := by
  unfold piTerm
  split_ifs with hc
  · exact le_refl 0
  · obtain ⟨hp0, hp1, _⟩ := prob_denom_bounds n c hn hc hcn
    have hlog : Real.log ((c : ℝ) / n) ≤ 0 := Real.log_nonpos (le_of_lt hp0) hp1
    have := mul_nonpos_of_nonneg_of_nonpos (le_of_lt hp0) hlog
    linarith

lemma csTerm_ge_piTerm (n c : ℕ) (hn : 1 ≤ n) (hcn : c ≤ n) :
    piTerm n c ≤ csTerm n c := by
  unfold piTerm csTerm
  split_ifs with hc hskip
  · exact le_refl 0
  · exfalso
    obtain ⟨hp0, hp1, hpow⟩ := prob_denom_bounds n c hn hc hcn
    have := exp_neg_one_lt_half
    have h12 : (1e-12 : ℝ) < 1 / 2 := by norm_num
    linarith
  · obtain ⟨hp0, hp1, hpow⟩ := prob_denom_bounds n c hn hc hcn
    have hd1 : 1 - (1 - (c : ℝ) / n) ^ n ≤ 1 := by
      have : (0 : ℝ) ≤ (1 - (c : ℝ) / n) ^ n := pow_nonneg (by linarith) n
      linarith
    have hd0 : 0 < 1 - (1 - (c : ℝ) / n) ^ n := by
      have := exp_neg_one_lt_half
      linarith
    have ha : (c : ℝ) / n * Real.log ((c : ℝ) / n) ≤ 0 :=
      mul_nonpos_of_nonneg_of_nonpos (le_of_lt hp0)
        (Real.log_nonpos (le_of_lt hp0) hp1)
    rw [neg_le_neg_iff, div_le_iff hd0]
    nlinarith

/-- Claim C9: the bias-corrected estimate dominates the naive one.  For every
vector of counts with total n ≥ 1: chaoShenH ≥ pluginH ≥ 0, and for every
nonzero count the Horvitz-Thompson denominator 1 - (1 - c/n)^n is at least
1 - 1/e, so the denom < 1e-12 skip branch of the source is never taken. -/
theorem chaoShenH_ge_pluginH (counts : List ℕ) (n : ℕ)
    (hsum : counts.sum = n) (hn : 1 ≤ n) :
    0 ≤ pluginH counts n ∧ pluginH counts n ≤ chaoShenH counts n ∧
    ∀ c ∈ counts, c ≠ 0 →
      1 - Real.exp (-1) ≤ 1 - (1 - (c : ℝ) / n) ^ n ∧
      ¬(1 - (1 - (c : ℝ) / n) ^ n < 1e-12) := by
  have hmem : ∀ c ∈ counts, c ≤ n := by
    intro c hc
    rw [← hsum]
    exact List.single_le_sum (fun x _ => Nat.zero_le x) c hc
  refine ⟨?_, ?_, ?_⟩
  · rw [pluginH_eq_sum]
    apply List.sum_nonneg
    intro x hx
    obtain ⟨c, hc, rfl⟩ := List.mem_map.mp hx
    exact piTerm_nonneg n c hn (hmem c hc)
  · rw [pluginH_eq_sum, chaoShenH_eq_sum]
    exact List.sum_le_sum fun c hc => csTerm_ge_piTerm n c hn (hmem c hc)
  · intro c hc hc0
    obtain ⟨_, _, hpow⟩ := prob_denom_bounds n c hn hc0 (hmem c hc)
    have hhalf := exp_neg_one_lt_half
    constructor
    · linarith
    · intro habs
      have : (1e-12 : ℝ) < 1 / 2 := by norm_num
      linarith

/-- Witness for C9 at counts = [2, 1, 1], n = 4. -/
theorem chaoShenH_ge_pluginH_witness :
    ([2, 1, 1] : List ℕ).sum = 4 ∧ 1 ≤ 4 ∧
    (0 ≤ pluginH [2, 1, 1] 4 ∧ pluginH [2, 1, 1] 4 ≤ chaoShenH [2, 1, 1] 4 ∧
     ∀ c ∈ ([2, 1, 1] : List ℕ), c ≠ 0 →
       1 - Real.exp (-1) ≤ 1 - (1 - (c : ℝ) / 4) ^ 4 ∧
       ¬(1 - (1 - (c : ℝ) / 4) ^ 4 < 1e-12)) :=
  ⟨by decide, by decide, chaoShenH_ge_pluginH [2, 1, 1] 4 (by decide) (by decide)⟩

/- ============ Replicator Euler update (src/bundle.js 618-632, 658-669) =====
   One iteration of the deterministic multi-platform loop of Figure 6:
   u = x.map((xi, i) => Hvals[i] + nu * Math.pow(xi, gamma));
   ubar = x.reduce((s, xi, i) => s + xi * u[i], 0);
   dx = x.map((xi, i) => xi * (u[i] - ubar));
   x = x.map((xi, i) => Math.max(1e-4, xi + dx[i] * dt));
   sum = x.reduce((s, v) => s + v, 0);
   x = x.map(v => v / sum); -/

/-- One explicit-Euler replicator update with clamping and renormalization,
as the deterministic ODE loop of Figure 6 performs it (the stochastic variant
in simulatePath adds a noise term before the same clamp and renormalization). -/
noncomputable def eulerStep (Hvals : List ℝ) (ν γ dt : ℝ) (x : List ℝ) : List ℝ :=
  let u := List.zipWith (fun xi Hi => Hi + ν * xi ^ γ) x Hvals
  let ubar := (List.zipWith (fun xi ui => xi * ui) x u).sum
  let x1 := List.zipWith (fun xi ui => max 1e-4 (xi + xi * (ui - ubar) * dt)) x u
  x1.map (fun v => v / x1.sum)

lemma zipWith_clamp_le (c : ℝ) (f : ℝ → ℝ → ℝ) :
    ∀ (x u : List ℝ) (v : ℝ), v ∈ List.zipWith (fun a b => max c (f a b)) x u → c ≤ v := by
  intro x
  induction x with
  | nil => intro u v hv; simp at hv
  | cons a x ih =>
      intro u v hv
      cases u with
      | nil => simp at hv
      | cons b u =>
          simp only [List.zipWith_cons_cons, List.mem_cons] at hv
          rcases hv with rfl | hv
          · exact le_max_left c _
          · exact ih u v hv

lemma list_map_div_sum (l : List ℝ) (c : ℝ) :
    (l.map (fun v => v / c)).sum = l.sum / c := by
  induction l with
  | nil => simp
  | cons a l ih => simp [ih, add_div]

/-- Counterexample to claim C4 as stated: the empty share vector satisfies
every hypothesis of the claim (all of its entries are positive, vacuously;
dt = 1 > 0), yet one update of the loop yields the empty vector again, whose
entries sum to 0, not to 1 (in the source, sum is 0 and the division is 0/0). -/
theorem eulerStep_empty_counterexample :
    (∀ xi ∈ ([] : List ℝ), 0 < xi) ∧ (0 : ℝ) < 1 ∧
    ¬((eulerStep [] 1 1 1 []).sum = 1) := by
  refine ⟨by simp, by norm_num, ?_⟩
  simp [eulerStep]

/-- Claim C4, amended with the nonemptiness the counterexample forces: for
every nonempty share vector x with positive entries paired with fitness
levels Hvals of the same length, and every dt > 0, one iteration of the
update loop yields entries that are all strictly positive and sum to one. -/
theorem eulerStep_simplex (Hvals : List ℝ) (ν γ dt : ℝ) (x : List ℝ)
    (hne : x ≠ []) (hlen : Hvals.length = x.length)
    (hpos : ∀ xi ∈ x, 0 < xi) (hdt : 0 < dt) :
    (∀ y ∈ eulerStep Hvals ν γ dt x, 0 < y) ∧
    (eulerStep Hvals ν γ dt x).sum = 1 := by
  unfold eulerStep
  set u := List.zipWith (fun xi Hi => Hi + ν * xi ^ γ) x Hvals with hu
  set ubar := (List.zipWith (fun xi ui => xi * ui) x u).sum with hubar
  set x1 := List.zipWith (fun xi ui => max 1e-4 (xi + xi * (ui - ubar) * dt)) x u
    with hx1
  have hx1mem : ∀ v ∈ x1, (1e-4 : ℝ) ≤ v := fun v hv =>
    zipWith_clamp_le 1e-4 (fun a b => a + a * (b - ubar) * dt) x u v hv
  have hx1ne : x1 ≠ [] := by
    have hulen : u.length = x.length := by
      rw [hu, List.length_zipWith, hlen, min_self]
    have : x1.length = x.length := by
      rw [hx1, List.length_zipWith, hulen, min_self]
    intro habs
    rw [habs] at this
    exact hne (List.length_eq_zero.mp this.symm)
  have hsumpos : 0 < x1.sum :=
    List.sum_pos x1 (fun v hv => lt_of_lt_of_le (by norm_num) (hx1mem v hv)) hx1ne
  constructor
  · intro y hy
    obtain ⟨v, hv, rfl⟩ := List.mem_map.mp hy
    exact div_pos (lt_of_lt_of_le (by norm_num) (hx1mem v hv)) hsumpos
  · rw [list_map_div_sum]
    exact div_self (ne_of_gt hsumpos)

/-- Witness for the amended C4 at x = [1/2, 1/2], Hvals = [0, 0], dt = 1. -/
theorem eulerStep_simplex_witness :
    ([(1:ℝ)/2, 1/2] ≠ []) ∧ ([(0:ℝ), 0].length = [(1:ℝ)/2, 1/2].length) ∧
    (∀ xi ∈ [(1:ℝ)/2, 1/2], 0 < xi) ∧ (0:ℝ) < 1 ∧
    ((∀ y ∈ eulerStep [0, 0] 1 1 1 [1/2, 1/2], 0 < y) ∧
     (eulerStep [0, 0] 1 1 1 [1/2, 1/2]).sum = 1) := by
  refine ⟨by simp, by simp, ?_, by norm_num,
    eulerStep_simplex [0, 0] 1 1 1 [1/2, 1/2] (by simp) (by simp) ?_ (by norm_num)⟩
  all_goals
    intro xi hxi
    rcases List.mem_cons.mp hxi with rfl | hxi
    · norm_num
    · rcases List.mem_cons.mp hxi with rfl | hxi
      · norm_num
      · simp at hxi

/- ============ Separatrix bisection (src/sim2-basin.js 16-29, Figure 2) =====
   function g(x, gamma) \x7b return Math.pow(1-x, gamma) - Math.pow(x, gamma); \x7d
   function findSep(deltaH, nu, gamma) \x7b
       if (deltaH >= nu) return 0;
       let lo = 0.001, hi = 0.499;
       60 times: mid = (lo+hi)/2; nu*g(mid,gamma) > deltaH ? lo = mid : hi = mid;
       return (lo + hi) / 2;
   \x7d
   Math.pow with a real exponent gamma is the real power x ^ gamma. -/

/-- g(x, gamma) from sim2-basin.js: (1-x)^gamma - x^gamma. -/
noncomputable def g (x γ : ℝ) : ℝ := (1 - x) ^ γ - x ^ γ

/-- The bisection state (lo, hi) after t iterations of the findSep loop. -/
noncomputable def sepIter (δ ν γ : ℝ) : ℕ → ℝ × ℝ
  | 0 => (0.001, 0.499)
  | t + 1 =>
      let p := sepIter δ ν γ t
      let mid := (p.1 + p.2) / 2
      if δ < ν * g mid γ then (mid, p.2) else (p.1, mid)

/-- findSep(deltaH, nu, gamma) from sim2-basin.js: 0 when deltaH ≥ nu,
otherwise the midpoint of the interval after 60 bisection steps. -/
noncomputable def findSep (δ ν γ : ℝ) : ℝ :=
  if ν ≤ δ then 0
  else ((sepIter δ ν γ 60).1 + (sepIter δ ν γ 60).2) / 2

lemma sepIter_succ (δ ν γ : ℝ) (t : ℕ) :
    sepIter δ ν γ (t + 1) =
      if δ < ν * g (((sepIter δ ν γ t).1 + (sepIter δ ν γ t).2) / 2) γ
      then (((sepIter δ ν γ t).1 + (sepIter δ ν γ t).2) / 2, (sepIter δ ν γ t).2)
      else ((sepIter δ ν γ t).1, ((sepIter δ ν γ t).1 + (sepIter δ ν γ t).2) / 2) := by
  rfl

lemma sepIter_bounds (δ ν γ : ℝ) : ∀ t,
    0.001 ≤ (sepIter δ ν γ t).1 ∧
    (sepIter δ ν γ t).1 < (sepIter δ ν γ t).2 ∧
    (sepIter δ ν γ t).2 ≤ 0.499 := by
  intro t
  induction t with
  | zero => norm_num [sepIter]
  | succ t ih =>
      obtain ⟨h1, h2, h3⟩ := ih
      rw [sepIter_succ]
      split_ifs <;> exact ⟨by dsimp; linarith, by dsimp; linarith, by dsimp; linarith⟩

lemma sepIter_width (δ ν γ : ℝ) : ∀ t,
    (sepIter δ ν γ t).2 - (sepIter δ ν γ t).1 = (0.499 - 0.001) / 2 ^ t := by
  intro t
  induction t with
  | zero => norm_num [sepIter]
  | succ t ih =>
      rw [sepIter_succ]
      split_ifs <;> dsimp <;> rw [pow_succ, ← div_div, ← ih] <;> ring

lemma g_strictAnti (γ : ℝ) (hγ : 0 < γ) {a b : ℝ}
    (ha : 0 ≤ a) (hab : a < b) (hb : b ≤ 1) : g b γ < g a γ := by
  unfold g
  have h1 : a ^ γ < b ^ γ := Real.rpow_lt_rpow ha hab hγ
  have h2 : (1 - b) ^ γ < (1 - a) ^ γ :=
    Real.rpow_lt_rpow (by linarith) (by linarith) hγ
  linarith

lemma g_continuousOn (γ : ℝ) (hγ : 0 < γ) :
    ContinuousOn (fun x => g x γ) (Set.Icc (0.001 : ℝ) 0.499) := by
  unfold g
  apply ContinuousOn.sub
  · exact (continuousOn_const.sub (continuousOn_id' _)).rpow_const
      fun x _ => Or.inr (le_of_lt hγ)
  · exact (continuousOn_id' _).rpow_const fun x _ => Or.inr (le_of_lt hγ)

lemma sepIter_root_mem (δ ν γ : ℝ) (hν : 0 < ν) (hγ : 0 < γ)
    {x : ℝ} (hx : x ∈ Set.Icc (0.001 : ℝ) 0.499) (hroot : ν * g x γ = δ) :
    ∀ t, (sepIter δ ν γ t).1 ≤ x ∧ x ≤ (sepIter δ ν γ t).2 := by
  obtain ⟨hx1, hx2⟩ := Set.mem_Icc.mp hx
  intro t
  induction t with
  | zero =>
      constructor
      · simpa [sepIter] using hx1
      · simpa [sepIter] using hx2
  | succ t ih =>
      obtain ⟨hlo, hhi⟩ := ih
      obtain ⟨hb1, hb2, hb3⟩ := sepIter_bounds δ ν γ t
      rw [sepIter_succ]
      split_ifs with hmid
      · refine ⟨?_, by dsimp; exact hhi⟩
        dsimp
        by_contra hcon
        push_neg at hcon
        have hga : g (((sepIter δ ν γ t).1 + (sepIter δ ν γ t).2) / 2) γ < g x γ :=
          g_strictAnti γ hγ (by linarith) hcon (by linarith)
        have : ν * g (((sepIter δ ν γ t).1 + (sepIter δ ν γ t).2) / 2) γ <
            ν * g x γ := by
          exact mul_lt_mul_of_pos_left hga hν
        rw [hroot] at this
        linarith
      · refine ⟨by dsimp; exact hlo, ?_⟩
        dsimp
        push_neg at hmid
        by_contra hcon
        push_neg at hcon
        have hga : g x γ < g (((sepIter δ ν γ t).1 + (sepIter δ ν γ t).2) / 2) γ :=
          g_strictAnti γ hγ (by linarith) hcon (by linarith)
        have : ν * g x γ <
            ν * g (((sepIter δ ν γ t).1 + (sepIter δ ν γ t).2) / 2) γ :=
          mul_lt_mul_of_pos_left hga hν
        rw [hroot] at this
        linarith

/-- Claim C8: edge-case behaviour of findSep at its interface.  For every
nu > 0 and every gamma: when deltaH ≥ nu, findSep returns exactly 0 (no
interior equilibrium), and when deltaH < nu the returned value lies in the
closed interval [0.001, 0.499]. -/
theorem findSep_range (δ ν γ : ℝ) (hν : 0 < ν) :
    (ν ≤ δ → findSep δ ν γ = 0) ∧
    (δ < ν → findSep δ ν γ ∈ Set.Icc (0.001 : ℝ) 0.499) := by
  constructor
  · intro h
    unfold findSep
    rw [if_pos h]
  · intro h
    unfold findSep
    rw [if_neg (not_le.mpr h)]
    obtain ⟨h1, h2, h3⟩ := sepIter_bounds δ ν γ 60
    exact Set.mem_Icc.mpr ⟨by linarith, by linarith⟩

/-- Witness for C8 at nu = 1, gamma = 1.5, both regimes reachable. -/
theorem findSep_range_witness :
    (0 : ℝ) < 1 ∧
    (((1 : ℝ) ≤ 2 → findSep 2 1 1.5 = 0) ∧
     ((2 : ℝ) < 1 → findSep 2 1 1.5 ∈ Set.Icc (0.001 : ℝ) 0.499)) :=
  ⟨by norm_num, findSep_range 2 1 1.5 (by norm_num)⟩

/-- Claim C1: findSep performs a correct bisection search for the interior
equilibrium.  For every deltaH, nu > 0 and gamma ≥ 1 with deltaH < nu and
nu * g(0.499, gamma) ≤ deltaH ≤ nu * g(0.001, gamma), there is exactly one
x in [0.001, 0.499] with nu * g(x, gamma) = deltaH (g is strictly decreasing
there), and findSep(deltaH, nu, gamma) lies within (0.499 - 0.001) / 2^60 of
every such x. -/
theorem findSep_bisection (δ ν γ : ℝ) (hν : 0 < ν) (hγ : 1 ≤ γ) (hδν : δ < ν)
    (hlo : ν * g 0.499 γ ≤ δ) (hhi : δ ≤ ν * g 0.001 γ) :
    (∃! x, x ∈ Set.Icc (0.001 : ℝ) 0.499 ∧ ν * g x γ = δ) ∧
    ∀ x ∈ Set.Icc (0.001 : ℝ) 0.499, ν * g x γ = δ →
      |findSep δ ν γ - x| ≤ (0.499 - 0.001) / 2 ^ 60 := by
  have hγ0 : (0 : ℝ) < γ := lt_of_lt_of_le one_pos hγ
  constructor
  · have hcont : ContinuousOn (fun x => ν * g x γ) (Set.Icc (0.001 : ℝ) 0.499) :=
      continuousOn_const.mul (g_continuousOn γ hγ0)
    have hmem : δ ∈ Set.Icc (ν * g 0.499 γ) (ν * g 0.001 γ) :=
      Set.mem_Icc.mpr ⟨hlo, hhi⟩
    obtain ⟨x, hxmem, hxroot0⟩ :=
      intermediate_value_Icc' (by norm_num) hcont hmem
    have hxroot : ν * g x γ = δ := hxroot0
    refine ⟨x, ⟨hxmem, hxroot⟩, ?_⟩
    rintro y ⟨hymem, hyroot⟩
    obtain ⟨hy1, hy2⟩ := Set.mem_Icc.mp hymem
    obtain ⟨hx1, hx2⟩ := Set.mem_Icc.mp hxmem
    by_contra hne
    rcases lt_or_gt_of_ne hne with hlt | hgt
    · have := g_strictAnti γ hγ0 (by linarith) hlt (by linarith)
      have := mul_lt_mul_of_pos_left this hν
      rw [hxroot, hyroot] at this
      exact lt_irrefl δ this
    · have := g_strictAnti γ hγ0 (by linarith) hgt (by linarith)
      have := mul_lt_mul_of_pos_left this hν
      rw [hxroot, hyroot] at this
      exact lt_irrefl δ this
  · intro x hx hroot
    have hmem := sepIter_root_mem δ ν γ hν hγ0 hx hroot 60
    have hw := sepIter_width δ ν γ 60
    have hb := sepIter_bounds δ ν γ 60
    have hC : (0 : ℝ) ≤ (0.499 - 0.001) / 2 ^ 60 := by positivity
    unfold findSep
    rw [if_neg (not_le.mpr hδν), abs_le]
    constructor <;> linarith [hmem.1, hmem.2]

/-- Witness for C1 at gamma = 1 (where g(x, 1) = 1 - 2x), nu = 1,
deltaH = 1/2. -/
theorem findSep_bisection_witness :
    (0 : ℝ) < 1 ∧ (1 : ℝ) ≤ 1 ∧ (1 / 2 : ℝ) < 1 ∧
    1 * g 0.499 1 ≤ (1 / 2 : ℝ) ∧ (1 / 2 : ℝ) ≤ 1 * g 0.001 1 ∧
    ((∃! x, x ∈ Set.Icc (0.001 : ℝ) 0.499 ∧ 1 * g x 1 = 1 / 2) ∧
     ∀ x ∈ Set.Icc (0.001 : ℝ) 0.499, 1 * g x 1 = 1 / 2 →
       |findSep (1 / 2) 1 1 - x| ≤ (0.499 - 0.001) / 2 ^ 60) := by
  have hg1 : ∀ y : ℝ, g y 1 = 1 - 2 * y := by
    intro y
    unfold g
    rw [Real.rpow_one, Real.rpow_one]
    ring
  refine ⟨by norm_num, le_refl 1, by norm_num, ?_, ?_,
    findSep_bisection (1 / 2) 1 1 (by norm_num) (le_refl 1) (by norm_num)
      (by rw [hg1]; norm_num) (by rw [hg1]; norm_num)⟩
  · rw [hg1]
    norm_num
  · rw [hg1]
    norm_num
